import Mathlib

/-!
Verification of the constraint-diff core of `hibernate3to4changelogGen.py`.

The script manipulates Liquibase changelog records as Python dicts mapping
attribute names to string values.  We embed such a dict as an association
list `StrDict` with first-match lookup; Python dict equality (key sets and
values agree, insertion order irrelevant) is the decidable `dictEq`.
Python raises `KeyError` on a missing subscript and `AssertionError` on a
failed `assert`; fallible functions therefore return `Except PyErr`.
-/

/-- A Python dict of string attributes, as an association list. -/
abbrev StrDict : Type := List (String × String)

/-- First-match lookup, the embedding of `d[k]` when it succeeds. -/
def dictGet? (d : StrDict) (k : String) : Option String :=
  match d with
  | [] => none
  | kv :: rest => if kv.1 = k then some kv.2 else dictGet? rest k

/-- Python dict equality: every binding of each side is found in the other.
Insertion order is irrelevant, exactly as for `==` on Python dicts. -/
def dictEq (a b : StrDict) : Bool :=
  (List.all a fun kv => dictGet? b kv.1 == some kv.2) &&
  (List.all b fun kv => dictGet? a kv.1 == some kv.2)

/-- The fatal errors the script can raise while diffing: a missing dict key
(Python `KeyError`) or a failed `assert` (Python `AssertionError`). -/
inductive PyErr : Type where
  | keyError (k : String)
  | assertionErr
deriving DecidableEq

instance {ε α : Type} [DecidableEq ε] [DecidableEq α] : DecidableEq (Except ε α) := fun x y =>
  match x, y with
  | Except.error a, Except.error b => decidable_of_iff (a = b) (by simp)
  | Except.error _, Except.ok _ => isFalse (by simp)
  | Except.ok _, Except.error _ => isFalse (by simp)
  | Except.ok a, Except.ok b => decidable_of_iff (a = b) (by simp)

/-- Embedding of `d[k]`: the value, or a fatal `KeyError`. -/
def pyGet (d : StrDict) (k : String) : Except PyErr String :=
  match dictGet? d k with
  | some v => Except.ok v
  | none => Except.error (PyErr.keyError k)

/-- Embedding of `to_drop_constraint_version`: project a record onto its
`constraintName` and `tableName` attributes (in that evaluation order). -/
def to_drop_constraint_version (d : StrDict) : Except PyErr StrDict :=
  match pyGet d "constraintName" with
  | Except.error e => Except.error e
  | Except.ok c =>
    match pyGet d "tableName" with
    | Except.error e => Except.error e
    | Except.ok t => Except.ok [("constraintName", c), ("tableName", t)]

/-- Embedding of `adds_to_add_drop_constraints` (the spec's ComputeRename).
It asserts equal `columnNames` and equal `tableName`, then returns the drop
projection of the master record paired with an add record that carries the
master's columns and table, the new record's constraint name, and the three
flag attributes hardcoded to the literal string false. -/
def adds_to_add_drop_constraints (m n : StrDict) : Except PyErr (StrDict × StrDict) :=
  match pyGet m "columnNames" with
  | Except.error e => Except.error e
  | Except.ok mc =>
  match pyGet n "columnNames" with
  | Except.error e => Except.error e
  | Except.ok nc =>
  if mc ≠ nc then Except.error PyErr.assertionErr else
  match pyGet m "tableName" with
  | Except.error e => Except.error e
  | Except.ok mt =>
  match pyGet n "tableName" with
  | Except.error e => Except.error e
  | Except.ok nt =>
  if mt ≠ nt then Except.error PyErr.assertionErr else
  match to_drop_constraint_version m with
  | Except.error e => Except.error e
  | Except.ok drop =>
  match pyGet n "constraintName" with
  | Except.error e => Except.error e
  | Except.ok ncn =>
  Except.ok (drop,
    [("columnNames", mc), ("constraintName", ncn),
     ("deferrable", "false"), ("disabled", "false"), ("initiallyDeferred", "false"),
     ("tableName", mt)])

/-- Embedding of `remove_dropped_adds` (the spec's FilterSuperseded): keep
each addition whose drop projection is not `==`-equal to any member of the
drop list. -/
def remove_dropped_adds (additions drops : List StrDict) : Except PyErr (List StrDict) :=
  match additions with
  | [] => Except.ok []
  | a :: rest =>
    match to_drop_constraint_version a with
    | Except.error e => Except.error e
    | Except.ok pa =>
      match remove_dropped_adds rest drops with
      | Except.error e => Except.error e
      | Except.ok tail =>
        Except.ok (if drops.any (fun d => dictEq pa d) then tail else a :: tail)

/-- The filter condition of `merge_master_adds_and_new_adds`, with Python's
left-to-right short-circuit evaluation of the `and` chain. -/
def mergeGuard (m n : StrDict) : Except PyErr Bool :=
  match pyGet m "tableName" with
  | Except.error e => Except.error e
  | Except.ok mt =>
  match pyGet n "tableName" with
  | Except.error e => Except.error e
  | Except.ok nt =>
  if mt ≠ nt then Except.ok false else
  match pyGet m "columnNames" with
  | Except.error e => Except.error e
  | Except.ok mc =>
  match pyGet n "columnNames" with
  | Except.error e => Except.error e
  | Except.ok nc =>
  if mc ≠ nc then Except.ok false else
  match pyGet m "constraintName" with
  | Except.error e => Except.error e
  | Except.ok mcn =>
  match pyGet n "constraintName" with
  | Except.error e => Except.error e
  | Except.ok ncn =>
  Except.ok (decide (mcn ≠ ncn))

/-- Inner loop of `merge_master_adds_and_new_adds`: pair one master record
against every new record that passes the guard, in order. -/
def mergeInner (master : StrDict) (newList : List StrDict) :
    Except PyErr (List (StrDict × StrDict)) :=
  match newList with
  | [] => Except.ok []
  | n :: rest =>
    match mergeGuard master n with
    | Except.error e => Except.error e
    | Except.ok b =>
      match mergeInner master rest with
      | Except.error e => Except.error e
      | Except.ok tail => Except.ok (if b then (master, n) :: tail else tail)

/-- Embedding of `merge_master_adds_and_new_adds` (the spec's
MatchByTableAndColumns): the cross product of master and new additions,
filtered to pairs with equal `tableName`, equal `columnNames` and distinct
`constraintName`. -/
def merge_master_adds_and_new_adds (masterList newList : List StrDict) :
    Except PyErr (List (StrDict × StrDict)) :=
  match masterList with
  | [] => Except.ok []
  | m :: rest =>
    match mergeInner m newList with
    | Except.error e => Except.error e
    | Except.ok first =>
      match merge_master_adds_and_new_adds rest newList with
      | Except.error e => Except.error e
      | Except.ok tail => Except.ok (first ++ tail)

/-- A minimal model of an `xml.etree.ElementTree` element: tag, attribute
dict, optional text, and a list of child elements in document order. -/
inductive XML : Type where
  | elem (tag : String) (attrs : StrDict) (txt : Option String) (children : List XML)

/-- Embedding of `ET.SubElement(parent, ...)`: the new child is appended at
the end of the parent's child list. -/
def appendChild (parent child : XML) : XML :=
  match parent with
  | XML.elem tag attrs txt children => XML.elem tag attrs txt (children ++ [child])

/-- The namespace/schema attribute dict placed on the root
`databaseChangeLog` element. -/
def nsAttrs : StrDict :=
  [("xmlns", "http://www.liquibase.org/xml/ns/dbchangelog"),
   ("xmlns:ext", "http://www.liquibase.org/xml/ns/dbchangelog-ext"),
   ("xmlns:xsi", "http://www.w3.org/2001/XMLSchema-instance"),
   ("xsi:schemaLocation", "http://www.liquibase.org/xml/ns/dbchangelog-ext http://www.liquibase.org/xml/ns/dbchangelog/dbchangelog-ext.xsd http://www.liquibase.org/xml/ns/dbchangelog http://www.liquibase.org/xml/ns/dbchangelog/dbchangelog-3.4.xsd")]

/-- The provenance comment text attached to the generated change-set. -/
def provenanceText : String :=
  "\n            Constraint naming convention was changed between Hibernate 3 and 4.\n            This XML was generated using the `hibernate3to4changelogGen.py` file.\n        "

/-- Embedding of `add_and_removes_to_changelog_xml` (the spec's
BuildChangelog).  The author attribute comes from `getpass.getuser()`, an
environment lookup, so it is taken here as the explicit parameter `user`.
The construction mirrors the script's `SubElement` calls: properties are
appended to the root, then the change-set receives the comment, a
drop/add element pair per rename, and the final `modifySql` directive. -/
def add_and_removes_to_changelog_xml (user : String)
    (add_and_removes : List (StrDict × StrDict)) (properties : List StrDict)
    (change_id : String) : XML :=
  let top := XML.elem "databaseChangeLog" nsAttrs none []
  let top := properties.foldl (fun t p => appendChild t (XML.elem "property" p none [])) top
  let cs := XML.elem "changeSet" [("author", user), ("id", change_id)] none []
  let cs := appendChild cs (XML.elem "comment" [] (some provenanceText) [])
  let cs := add_and_removes.foldl
    (fun c da =>
      appendChild (appendChild c (XML.elem "dropUniqueConstraint" da.1 none []))
        (XML.elem "addUniqueConstraint" da.2 none [])) cs
  let cs := appendChild cs
    (XML.elem "modifySql" [("dbms", "postgresql")] none
      [XML.elem "replace" [("replace", "WITH"), ("with", "WITHOUT")] none []])
  appendChild top cs

/-- One `property` element per passthrough record, in input order: the
shape the changelog's property prefix is expected to take. -/
def propertyElems (properties : List StrDict) : List XML :=
  properties.map fun p => XML.elem "property" p none []

/-- The expected change-set body for a pair list: for each rename pair, the
drop-constraint element immediately followed by the add-constraint element. -/
def renamePairElems : List (StrDict × StrDict) → List XML
  | [] => []
  | da :: rest =>
    XML.elem "dropUniqueConstraint" da.1 none [] ::
    XML.elem "addUniqueConstraint" da.2 none [] :: renamePairElems rest

/-- The expected provenance comment element. -/
def commentElem : XML := XML.elem "comment" [] (some provenanceText) []

/-- The expected trailing `modifySql` directive: scoped to postgresql and
holding a single replacement of the token WITH by WITHOUT. -/
def modifySqlElem : XML :=
  XML.elem "modifySql" [("dbms", "postgresql")] none
    [XML.elem "replace" [("replace", "WITH"), ("with", "WITHOUT")] none []]

/-- The retention condition of `remove_dropped_adds`, as a Boolean
predicate on one addition: its drop projection exists and is dict-equal to
no member of the drop list. -/
def keepAdd (drops : List StrDict) (a : StrDict) : Bool :=
  match to_drop_constraint_version a with
  | Except.ok pa => !(drops.any fun d => dictEq pa d)
  | Except.error _ => false

/-- The matching condition the spec states for MatchByTableAndColumns: both
records carry the three key attributes, with equal `tableName`, equal
`columnNames` under exact string equality, and distinct `constraintName`. -/
abbrev matchCond (x y : StrDict) : Prop :=
  ∃ t c xcn ycn,
    dictGet? x "tableName" = some t ∧ dictGet? y "tableName" = some t ∧
    dictGet? x "columnNames" = some c ∧ dictGet? y "columnNames" = some c ∧
    dictGet? x "constraintName" = some xcn ∧ dictGet? y "constraintName" = some ycn ∧
    xcn ≠ ycn

theorem dictGet?_mem {d : StrDict} {k v : String} (h : dictGet? d k = some v) : (k, v) ∈ d := by
  induction d with
  | nil => simp [dictGet?] at h
  | cons kv rest ih =>
    obtain ⟨k1, v1⟩ := kv
    simp only [dictGet?] at h
    by_cases hk : k1 = k
    · subst hk
      simp at h
      simp [h]
    · simp [hk] at h
      exact List.mem_cons_of_mem _ (ih h)

theorem pyGet_ok_iff {d : StrDict} {k v : String} :
    pyGet d k = Except.ok v ↔ dictGet? d k = some v := by
  unfold pyGet
  cases h : dictGet? d k <;> simp

theorem to_drop_shape {a pa : StrDict} (h : to_drop_constraint_version a = Except.ok pa) :
    ∃ c t, dictGet? a "constraintName" = some c ∧ dictGet? a "tableName" = some t ∧
      pa = [("constraintName", c), ("tableName", t)] := by
  unfold to_drop_constraint_version pyGet at h
  cases h1 : dictGet? a "constraintName" with
  | none => simp [h1] at h
  | some c =>
    simp only [h1] at h
    cases h2 : dictGet? a "tableName" with
    | none => simp [h2] at h
    | some t =>
      simp only [h2, Except.ok.injEq] at h
      exact ⟨c, t, rfl, rfl, h.symm⟩

theorem mergeGuard_true_of {x y : StrDict} {t c xcn ycn : String}
    (h1 : dictGet? x "tableName" = some t) (h2 : dictGet? y "tableName" = some t)
    (h3 : dictGet? x "columnNames" = some c) (h4 : dictGet? y "columnNames" = some c)
    (h5 : dictGet? x "constraintName" = some xcn) (h6 : dictGet? y "constraintName" = some ycn)
    (h7 : xcn ≠ ycn) : mergeGuard x y = Except.ok true := by
  simp [mergeGuard, pyGet, h1, h2, h3, h4, h5, h6, h7]

theorem mergeGuard_true_elim {x y : StrDict} (h : mergeGuard x y = Except.ok true) :
    matchCond x y := by
  rcases h1 : dictGet? x "tableName" with _ | mt
  · simp [mergeGuard, pyGet, h1] at h
  rcases h2 : dictGet? y "tableName" with _ | nt
  · simp [mergeGuard, pyGet, h1, h2] at h
  by_cases ht : mt = nt
  case neg => simp [mergeGuard, pyGet, h1, h2, ht] at h
  subst ht
  rcases h3 : dictGet? x "columnNames" with _ | mc
  · simp [mergeGuard, pyGet, h1, h2, h3] at h
  rcases h4 : dictGet? y "columnNames" with _ | nc
  · simp [mergeGuard, pyGet, h1, h2, h3, h4] at h
  by_cases hc : mc = nc
  case neg => simp [mergeGuard, pyGet, h1, h2, h3, h4, hc] at h
  subst hc
  rcases h5 : dictGet? x "constraintName" with _ | mcn
  · simp [mergeGuard, pyGet, h1, h2, h3, h4, h5] at h
  rcases h6 : dictGet? y "constraintName" with _ | ncn
  · simp [mergeGuard, pyGet, h1, h2, h3, h4, h5, h6] at h
  have hne : mcn ≠ ncn := by
    simp [mergeGuard, pyGet, h1, h2, h3, h4, h5, h6] at h
    exact h
  exact ⟨mt, mc, mcn, ncn, h1, h2, h3, h4, h5, h6, hne⟩

theorem computeRename_ok {m n : StrDict} {c t mcn ncn : String}
    (hmc : dictGet? m "columnNames" = some c) (hnc : dictGet? n "columnNames" = some c)
    (hmt : dictGet? m "tableName" = some t) (hnt : dictGet? n "tableName" = some t)
    (hmn : dictGet? m "constraintName" = some mcn)
    (hnn : dictGet? n "constraintName" = some ncn) :
    adds_to_add_drop_constraints m n =
      Except.ok ([("constraintName", mcn), ("tableName", t)],
        [("columnNames", c), ("constraintName", ncn),
         ("deferrable", "false"), ("disabled", "false"), ("initiallyDeferred", "false"),
         ("tableName", t)]) := by
  simp [adds_to_add_drop_constraints, to_drop_constraint_version, pyGet,
    hmc, hnc, hmt, hnt, hmn, hnn]

theorem computeRename_ok_elim {m n : StrDict} {p : StrDict × StrDict}
    (h : adds_to_add_drop_constraints m n = Except.ok p) :
    ∃ c t mcn ncn,
      dictGet? m "columnNames" = some c ∧ dictGet? n "columnNames" = some c ∧
      dictGet? m "tableName" = some t ∧ dictGet? n "tableName" = some t ∧
      dictGet? m "constraintName" = some mcn ∧ dictGet? n "constraintName" = some ncn ∧
      p = ([("constraintName", mcn), ("tableName", t)],
        [("columnNames", c), ("constraintName", ncn),
         ("deferrable", "false"), ("disabled", "false"), ("initiallyDeferred", "false"),
         ("tableName", t)]) := by
  rcases h1 : dictGet? m "columnNames" with _ | mc
  · simp [adds_to_add_drop_constraints, pyGet, h1] at h
  rcases h2 : dictGet? n "columnNames" with _ | nc
  · simp [adds_to_add_drop_constraints, pyGet, h1, h2] at h
  by_cases hcc : mc = nc
  case neg => simp [adds_to_add_drop_constraints, pyGet, h1, h2, hcc] at h
  subst hcc
  rcases h3 : dictGet? m "tableName" with _ | mt
  · simp [adds_to_add_drop_constraints, pyGet, h1, h2, h3] at h
  rcases h4 : dictGet? n "tableName" with _ | nt
  · simp [adds_to_add_drop_constraints, pyGet, h1, h2, h3, h4] at h
  by_cases htt : mt = nt
  case neg => simp [adds_to_add_drop_constraints, pyGet, h1, h2, h3, h4, htt] at h
  subst htt
  rcases h5 : dictGet? m "constraintName" with _ | mcn
  · simp [adds_to_add_drop_constraints, to_drop_constraint_version, pyGet,
      h1, h2, h3, h4, h5] at h
  rcases h6 : dictGet? n "constraintName" with _ | ncn
  · simp [adds_to_add_drop_constraints, to_drop_constraint_version, pyGet,
      h1, h2, h3, h4, h5, h6] at h
  have hp := computeRename_ok h1 h2 h3 h4 h5 h6
  rw [h] at hp
  simp only [Except.ok.injEq] at hp
  exact ⟨mc, mt, mcn, ncn, rfl, rfl, rfl, rfl, rfl, rfl, hp⟩

theorem remove_ok_iff {l drops r : List StrDict}
    (h : remove_dropped_adds l drops = Except.ok r) :
    r = l.filter (keepAdd drops) ∧
      ∀ a ∈ l, ∃ pa, to_drop_constraint_version a = Except.ok pa := by
  induction l generalizing r with
  | nil =>
    simp only [remove_dropped_adds, Except.ok.injEq] at h
    simp [← h]
  | cons a rest ih =>
    simp only [remove_dropped_adds] at h
    cases hpa : to_drop_constraint_version a with
    | error e => rw [hpa] at h; exact absurd h (by simp)
    | ok pa =>
      rw [hpa] at h
      cases hrest : remove_dropped_adds rest drops with
      | error e => rw [hrest] at h; exact absurd h (by simp)
      | ok tail =>
        rw [hrest] at h
        simp only [Except.ok.injEq] at h
        obtain ⟨htail, hall⟩ := ih hrest
        constructor
        · rw [← h, List.filter_cons, keepAdd, hpa, htail]
          cases hmem : drops.any fun d => dictEq pa d <;> simp [hmem]
        · intro b hb
          rcases List.mem_cons.mp hb with hb | hb
          · exact ⟨pa, hb ▸ hpa⟩
          · exact hall b hb

theorem remove_of_all_ok {l : List StrDict} (drops : List StrDict)
    (h : ∀ a ∈ l, ∃ pa, to_drop_constraint_version a = Except.ok pa) :
    remove_dropped_adds l drops = Except.ok (l.filter (keepAdd drops)) := by
  induction l with
  | nil => simp [remove_dropped_adds]
  | cons a rest ih =>
    obtain ⟨pa, hpa⟩ := h a (List.mem_cons_self a rest)
    have hrest := ih fun b hb => h b (List.mem_cons_of_mem a hb)
    simp only [remove_dropped_adds, hpa, hrest, List.filter_cons, keepAdd]
    cases hmem : drops.any fun d => dictEq pa d <;> simp [hmem]

theorem mergeInner_mem {m : StrDict} {nl : List StrDict} {K : List (StrDict × StrDict)}
    (h : mergeInner m nl = Except.ok K) (x y : StrDict) :
    (x, y) ∈ K ↔ x = m ∧ y ∈ nl ∧ mergeGuard m y = Except.ok true := by
  induction nl generalizing K with
  | nil =>
    simp only [mergeInner, Except.ok.injEq] at h
    simp [← h]
  | cons n rest ih =>
    simp only [mergeInner] at h
    cases hg : mergeGuard m n with
    | error e => rw [hg] at h; exact absurd h (by simp)
    | ok b =>
      rw [hg] at h
      cases ht : mergeInner m rest with
      | error e => rw [ht] at h; exact absurd h (by simp)
      | ok tail =>
        rw [ht] at h
        simp only [Except.ok.injEq] at h
        subst h
        cases b with
        | true =>
          constructor
          · intro hmem
            rcases List.mem_cons.mp hmem with hp | hp
            · obtain ⟨hx, hy⟩ := Prod.mk.injEq .. ▸ hp
              refine ⟨by simpa using hx, ?_, ?_⟩
              · simp [Prod.ext_iff] at hp
                simp [hp.2]
              · simp [Prod.ext_iff] at hp
                rw [hp.2]; exact hg
            · obtain ⟨hx, hy, hgy⟩ := (ih ht).mp hp
              exact ⟨hx, List.mem_cons_of_mem n hy, hgy⟩
          · rintro ⟨hx, hy, hgy⟩
            subst hx
            rcases List.mem_cons.mp hy with hy | hy
            · subst hy
              simp
            · exact List.mem_cons_of_mem _ ((ih ht).mpr ⟨rfl, hy, hgy⟩)
        | false =>
          rw [if_neg (by simp)]
          rw [ih ht]
          constructor
          · rintro ⟨hx, hy, hgy⟩
            exact ⟨hx, List.mem_cons_of_mem n hy, hgy⟩
          · rintro ⟨hx, hy, hgy⟩
            rcases List.mem_cons.mp hy with hy | hy
            · subst hy
              rw [hgy] at hg
              exact absurd hg (by simp)
            · exact ⟨hx, hy, hgy⟩

theorem merge_mem {ml nl : List StrDict} {L : List (StrDict × StrDict)}
    (h : merge_master_adds_and_new_adds ml nl = Except.ok L) (x y : StrDict) :
    (x, y) ∈ L ↔ x ∈ ml ∧ y ∈ nl ∧ mergeGuard x y = Except.ok true := by
  induction ml generalizing L with
  | nil =>
    simp only [merge_master_adds_and_new_adds, Except.ok.injEq] at h
    simp [← h]
  | cons m rest ih =>
    simp only [merge_master_adds_and_new_adds] at h
    cases hK : mergeInner m nl with
    | error e => rw [hK] at h; exact absurd h (by simp)
    | ok K =>
      rw [hK] at h
      cases hT : merge_master_adds_and_new_adds rest nl with
      | error e => rw [hT] at h; exact absurd h (by simp)
      | ok T =>
        rw [hT] at h
        simp only [Except.ok.injEq] at h
        subst h
        rw [List.mem_append, mergeInner_mem hK x y, ih hT]
        constructor
        · rintro (⟨hx, hy, hgy⟩ | ⟨hx, hy, hgy⟩)
          · exact ⟨hx ▸ List.mem_cons_self m rest, hy, hx ▸ hgy⟩
          · exact ⟨List.mem_cons_of_mem m hx, hy, hgy⟩
        · rintro ⟨hx, hy, hgy⟩
          rcases List.mem_cons.mp hx with hx | hx
          · exact Or.inl ⟨hx, hy, hx ▸ hgy⟩
          · exact Or.inr ⟨hx, hy, hgy⟩

theorem mergeInner_count {m : StrDict} {nl : List StrDict} {K : List (StrDict × StrDict)}
    (h : mergeInner m nl = Except.ok K) {x y : StrDict}
    (hg : mergeGuard x y = Except.ok true) :
    K.count (x, y) = if x = m then nl.count y else 0 := by
  induction nl generalizing K with
  | nil =>
    simp only [mergeInner, Except.ok.injEq] at h
    simp [← h]
  | cons n rest ih =>
    simp only [mergeInner] at h
    cases hgn : mergeGuard m n with
    | error e => rw [hgn] at h; exact absurd h (by simp)
    | ok b =>
      rw [hgn] at h
      cases ht : mergeInner m rest with
      | error e => rw [ht] at h; exact absurd h (by simp)
      | ok tail =>
        rw [ht] at h
        simp only [Except.ok.injEq] at h
        subst h
        by_cases hx : x = m
        · subst hx
          cases b with
          | true =>
            by_cases hny : n = y
            · subst hny
              simp [List.count_cons, ih ht]
            · simp [List.count_cons, ih ht, hny, Ne.symm hny]
          | false =>
            have hny : n ≠ y := by
              intro he
              rw [he, hg] at hgn
              exact absurd hgn (by simp)
            simp [List.count_cons, ih ht, Ne.symm hny]
        · cases b with
          | true => simp [List.count_cons, ih ht, hx, fun he : m = x => hx he.symm]
          | false => simp [ih ht, hx]

theorem merge_count {ml nl : List StrDict} {L : List (StrDict × StrDict)}
    (h : merge_master_adds_and_new_adds ml nl = Except.ok L) {x y : StrDict}
    (hg : mergeGuard x y = Except.ok true) :
    L.count (x, y) = ml.count x * nl.count y := by
  induction ml generalizing L with
  | nil =>
    simp only [merge_master_adds_and_new_adds, Except.ok.injEq] at h
    simp [← h]
  | cons m rest ih =>
    simp only [merge_master_adds_and_new_adds] at h
    cases hK : mergeInner m nl with
    | error e => rw [hK] at h; exact absurd h (by simp)
    | ok K =>
      rw [hK] at h
      cases hT : merge_master_adds_and_new_adds rest nl with
      | error e => rw [hT] at h; exact absurd h (by simp)
      | ok T =>
        rw [hT] at h
        simp only [Except.ok.injEq] at h
        subst h
        rw [List.count_append, mergeInner_count hK hg, ih hT, List.count_cons]
        by_cases hx : x = m
        · subst hx
          simp [Nat.add_mul, Nat.add_comm]
        · simp only [if_neg hx]
          simp [hx]
          exact Or.inl fun he => hx he.symm

theorem foldl_property_append (properties : List StrDict) (tag : String) (attrs : StrDict)
    (txt : Option String) (cs : List XML) :
    properties.foldl (fun t p => appendChild t (XML.elem "property" p none []))
        (XML.elem tag attrs txt cs) =
      XML.elem tag attrs txt (cs ++ propertyElems properties) := by
  induction properties generalizing cs with
  | nil => simp [propertyElems]
  | cons p rest ih =>
    rw [List.foldl_cons]
    have h1 : appendChild (XML.elem tag attrs txt cs) (XML.elem "property" p none []) =
        XML.elem tag attrs txt (cs ++ [XML.elem "property" p none []]) := by
      simp [appendChild]
    rw [h1, ih]
    simp [propertyElems]

theorem foldl_rename_append (pairs : List (StrDict × StrDict)) (tag : String) (attrs : StrDict)
    (txt : Option String) (cs : List XML) :
    pairs.foldl
        (fun c da =>
          appendChild (appendChild c (XML.elem "dropUniqueConstraint" da.1 none []))
            (XML.elem "addUniqueConstraint" da.2 none []))
        (XML.elem tag attrs txt cs) =
      XML.elem tag attrs txt (cs ++ renamePairElems pairs) := by
  induction pairs generalizing cs with
  | nil => simp [renamePairElems]
  | cons da rest ih =>
    rw [List.foldl_cons]
    have h1 : appendChild
          (appendChild (XML.elem tag attrs txt cs) (XML.elem "dropUniqueConstraint" da.1 none []))
          (XML.elem "addUniqueConstraint" da.2 none []) =
        XML.elem tag attrs txt
          (cs ++ [XML.elem "dropUniqueConstraint" da.1 none [],
            XML.elem "addUniqueConstraint" da.2 none []]) := by
      simp [appendChild]
    rw [h1, ih]
    simp [renamePairElems]

/-- C1: for any master and new addition records with equal `columnNames`
and equal `tableName`, ComputeRename (`adds_to_add_drop_constraints`)
returns exactly the drop record {constraintName = master's, tableName =
master's} and the add record {columnNames = master's, constraintName =
new's, deferrable = "false", disabled = "false", initiallyDeferred =
"false", tableName = master's}; the three flag attributes are the literal
string "false" regardless of the flag values present on either input. -/
theorem claim_C1_compute_rename_output (m n : StrDict) (c t mcn ncn : String)
    (hmc : dictGet? m "columnNames" = some c) (hnc : dictGet? n "columnNames" = some c)
    (hmt : dictGet? m "tableName" = some t) (hnt : dictGet? n "tableName" = some t)
    (hmn : dictGet? m "constraintName" = some mcn)
    (hnn : dictGet? n "constraintName" = some ncn) :
    adds_to_add_drop_constraints m n =
      Except.ok ([("constraintName", mcn), ("tableName", t)],
        [("columnNames", c), ("constraintName", ncn),
         ("deferrable", "false"), ("disabled", "false"), ("initiallyDeferred", "false"),
         ("tableName", t)]) :=
  computeRename_ok hmc hnc hmt hnt hmn hnn

/-- Witness for C1 at concrete inputs whose flag attributes are "true",
showing the output flags are reset to "false" anyway. -/
theorem claim_C1_witness :
    adds_to_add_drop_constraints
        [("columnNames", "uuid, macaddress, vlan"), ("constraintName", "A"),
         ("deferrable", "true"), ("disabled", "true"), ("initiallyDeferred", "true"),
         ("tableName", "T")]
        [("columnNames", "uuid, macaddress, vlan"), ("constraintName", "B"),
         ("tableName", "T")] =
      Except.ok ([("constraintName", "A"), ("tableName", "T")],
        [("columnNames", "uuid, macaddress, vlan"), ("constraintName", "B"),
         ("deferrable", "false"), ("disabled", "false"), ("initiallyDeferred", "false"),
         ("tableName", "T")]) :=
  claim_C1_compute_rename_output _ _ "uuid, macaddress, vlan" "T" "A" "B"
    rfl rfl rfl rfl rfl rfl

/-- C5: within every rename pair produced by ComputeRename, the drop's
tableName equals the add's tableName, the add's columnNames equal the
master input's columnNames, and only the constraint name changes: the drop
carries the master's constraint name and the add carries the new one. -/
theorem claim_C5_rename_pair_invariant (m n drop add : StrDict)
    (h : adds_to_add_drop_constraints m n = Except.ok (drop, add)) :
    dictGet? drop "tableName" = dictGet? add "tableName" ∧
      dictGet? add "columnNames" = dictGet? m "columnNames" ∧
      dictGet? drop "constraintName" = dictGet? m "constraintName" ∧
      dictGet? add "constraintName" = dictGet? n "constraintName" := by
  obtain ⟨c, t, mcn, ncn, h1, h2, h3, h4, h5, h6, hp⟩ := computeRename_ok_elim h
  simp only [Prod.mk.injEq] at hp
  obtain ⟨hd, ha⟩ := hp
  subst hd
  subst ha
  simp [dictGet?, h1, h3, h5, h6]

/-- Witness for C5 at a concrete rename pair. -/
theorem claim_C5_witness :
    dictGet? [("constraintName", "A"), ("tableName", "T")] "tableName" =
        dictGet?
          [("columnNames", "u"), ("constraintName", "B"), ("deferrable", "false"),
           ("disabled", "false"), ("initiallyDeferred", "false"), ("tableName", "T")]
          "tableName" ∧
      dictGet?
          [("columnNames", "u"), ("constraintName", "B"), ("deferrable", "false"),
           ("disabled", "false"), ("initiallyDeferred", "false"), ("tableName", "T")]
          "columnNames" =
        dictGet? [("columnNames", "u"), ("constraintName", "A"), ("tableName", "T")]
          "columnNames" ∧
      dictGet? [("constraintName", "A"), ("tableName", "T")] "constraintName" =
        dictGet? [("columnNames", "u"), ("constraintName", "A"), ("tableName", "T")]
          "constraintName" ∧
      dictGet?
          [("columnNames", "u"), ("constraintName", "B"), ("deferrable", "false"),
           ("disabled", "false"), ("initiallyDeferred", "false"), ("tableName", "T")]
          "constraintName" =
        dictGet? [("columnNames", "u"), ("constraintName", "B"), ("tableName", "T")]
          "constraintName" :=
  claim_C5_rename_pair_invariant
    [("columnNames", "u"), ("constraintName", "A"), ("tableName", "T")]
    [("columnNames", "u"), ("constraintName", "B"), ("tableName", "T")]
    [("constraintName", "A"), ("tableName", "T")]
    [("columnNames", "u"), ("constraintName", "B"), ("deferrable", "false"),
     ("disabled", "false"), ("initiallyDeferred", "false"), ("tableName", "T")]
    (by decide)

/-- C8 counterexample: a master record carrying flag attributes with value
"true" flows through ComputeRename into an add record whose flag
attributes are "false"; the value on the record that emerges from the diff
pipeline differs from the value on the parsed input record, so the flag
attributes are not carried through unchanged. -/
theorem claim_C8_counterexample :
    adds_to_add_drop_constraints
        [("columnNames", "u"), ("constraintName", "A"), ("deferrable", "true"),
         ("disabled", "true"), ("initiallyDeferred", "true"), ("tableName", "T")]
        [("columnNames", "u"), ("constraintName", "B"), ("tableName", "T")] =
      Except.ok ([("constraintName", "A"), ("tableName", "T")],
        [("columnNames", "u"), ("constraintName", "B"),
         ("deferrable", "false"), ("disabled", "false"), ("initiallyDeferred", "false"),
         ("tableName", "T")]) ∧
      dictGet?
          [("columnNames", "u"), ("constraintName", "B"),
           ("deferrable", "false"), ("disabled", "false"), ("initiallyDeferred", "false"),
           ("tableName", "T")] "deferrable" ≠
        dictGet?
          [("columnNames", "u"), ("constraintName", "A"), ("deferrable", "true"),
           ("disabled", "true"), ("initiallyDeferred", "true"), ("tableName", "T")]
          "deferrable" :=
  ⟨by decide, by decide⟩

/-- C8 amended: the three flag attributes on the add record that emerges
from ComputeRename are always the literal string "false", so an input
record's flag values survive the transformation exactly when they are
already "false". -/
theorem claim_C8_amended_flags (m n drop add : StrDict)
    (h : adds_to_add_drop_constraints m n = Except.ok (drop, add)) :
    dictGet? add "deferrable" = some "false" ∧ dictGet? add "disabled" = some "false" ∧
      dictGet? add "initiallyDeferred" = some "false" := by
  obtain ⟨c, t, mcn, ncn, h1, h2, h3, h4, h5, h6, hp⟩ := computeRename_ok_elim h
  simp only [Prod.mk.injEq] at hp
  obtain ⟨hd, ha⟩ := hp
  subst ha
  simp [dictGet?]

/-- Witness for the amended C8 at a concrete rename pair. -/
theorem claim_C8_witness :
    dictGet?
          [("columnNames", "u"), ("constraintName", "B"), ("deferrable", "false"),
           ("disabled", "false"), ("initiallyDeferred", "false"), ("tableName", "T")]
          "deferrable" = some "false" ∧
      dictGet?
          [("columnNames", "u"), ("constraintName", "B"), ("deferrable", "false"),
           ("disabled", "false"), ("initiallyDeferred", "false"), ("tableName", "T")]
          "disabled" = some "false" ∧
      dictGet?
          [("columnNames", "u"), ("constraintName", "B"), ("deferrable", "false"),
           ("disabled", "false"), ("initiallyDeferred", "false"), ("tableName", "T")]
          "initiallyDeferred" = some "false" :=
  claim_C8_amended_flags
    [("columnNames", "u"), ("constraintName", "A"), ("deferrable", "true"),
     ("disabled", "true"), ("initiallyDeferred", "true"), ("tableName", "T")]
    [("columnNames", "u"), ("constraintName", "B"), ("tableName", "T")]
    [("constraintName", "A"), ("tableName", "T")]
    [("columnNames", "u"), ("constraintName", "B"), ("deferrable", "false"),
     ("disabled", "false"), ("initiallyDeferred", "false"), ("tableName", "T")]
    (by decide)

/-- C2: MatchByTableAndColumns yields the pair (master, new) iff master is
in the master list, new is in the new list, their tableName values agree,
their columnNames values agree under exact string equality, and their
constraintName values differ; every combination of the cross product
satisfying the condition is yielded with no de-duplication: the
multiplicity of a matching pair in the output is the product of the
multiplicities of its two components, so one master and one new addition
on the same table and columns differing only in constraint name yield
exactly one pair. -/
theorem claim_C2_match_by_table_and_columns (ml nl : List StrDict)
    (L : List (StrDict × StrDict)) (x y : StrDict)
    (h : merge_master_adds_and_new_adds ml nl = Except.ok L) :
    ((x, y) ∈ L ↔ x ∈ ml ∧ y ∈ nl ∧ matchCond x y) ∧
      (matchCond x y → L.count (x, y) = ml.count x * nl.count y) := by
  constructor
  · rw [merge_mem h x y]
    constructor
    · rintro ⟨hx, hy, hg⟩
      exact ⟨hx, hy, mergeGuard_true_elim hg⟩
    · rintro ⟨hx, hy, t, c, xcn, ycn, h1, h2, h3, h4, h5, h6, h7⟩
      exact ⟨hx, hy, mergeGuard_true_of h1 h2 h3 h4 h5 h6 h7⟩
  · rintro ⟨t, c, xcn, ycn, h1, h2, h3, h4, h5, h6, h7⟩
    exact merge_count h (mergeGuard_true_of h1 h2 h3 h4 h5 h6 h7)

/-- Witness for C2: one master and one new addition on the same table and
columns differing only in constraint name, yielding exactly the one pair. -/
theorem claim_C2_witness :
    (([("columnNames", "u"), ("constraintName", "A"), ("tableName", "T")],
      [("columnNames", "u"), ("constraintName", "B"), ("tableName", "T")]) ∈
        ([([("columnNames", "u"), ("constraintName", "A"), ("tableName", "T")],
           [("columnNames", "u"), ("constraintName", "B"), ("tableName", "T")])] :
          List (StrDict × StrDict)) ↔
      [("columnNames", "u"), ("constraintName", "A"), ("tableName", "T")] ∈
          [[("columnNames", "u"), ("constraintName", "A"), ("tableName", "T")]] ∧
        [("columnNames", "u"), ("constraintName", "B"), ("tableName", "T")] ∈
          [[("columnNames", "u"), ("constraintName", "B"), ("tableName", "T")]] ∧
        matchCond [("columnNames", "u"), ("constraintName", "A"), ("tableName", "T")]
          [("columnNames", "u"), ("constraintName", "B"), ("tableName", "T")]) ∧
      (matchCond [("columnNames", "u"), ("constraintName", "A"), ("tableName", "T")]
          [("columnNames", "u"), ("constraintName", "B"), ("tableName", "T")] →
        List.count
            ([("columnNames", "u"), ("constraintName", "A"), ("tableName", "T")],
             [("columnNames", "u"), ("constraintName", "B"), ("tableName", "T")])
            [([("columnNames", "u"), ("constraintName", "A"), ("tableName", "T")],
              [("columnNames", "u"), ("constraintName", "B"), ("tableName", "T")])] =
          List.count [("columnNames", "u"), ("constraintName", "A"), ("tableName", "T")]
              [[("columnNames", "u"), ("constraintName", "A"), ("tableName", "T")]] *
            List.count [("columnNames", "u"), ("constraintName", "B"), ("tableName", "T")]
              [[("columnNames", "u"), ("constraintName", "B"), ("tableName", "T")]]) :=
  claim_C2_match_by_table_and_columns
    [[("columnNames", "u"), ("constraintName", "A"), ("tableName", "T")]]
    [[("columnNames", "u"), ("constraintName", "B"), ("tableName", "T")]]
    [([("columnNames", "u"), ("constraintName", "A"), ("tableName", "T")],
      [("columnNames", "u"), ("constraintName", "B"), ("tableName", "T")])]
    [("columnNames", "u"), ("constraintName", "A"), ("tableName", "T")]
    [("columnNames", "u"), ("constraintName", "B"), ("tableName", "T")]
    (by decide)

/-- C4: on records carrying the columnNames and tableName attributes,
ComputeRename fails with the assertion violation exactly when the
columnNames values or the tableName values differ; and every pair yielded
by MatchByTableAndColumns satisfies the precondition, so ComputeRename
applied to such a pair never reaches the failure branch. -/
theorem claim_C4_precondition_safety :
    (∀ (m n : StrDict) (mc nc mt nt : String),
        dictGet? m "columnNames" = some mc → dictGet? n "columnNames" = some nc →
        dictGet? m "tableName" = some mt → dictGet? n "tableName" = some nt →
        ((mc ≠ nc ∨ mt ≠ nt) ↔
          adds_to_add_drop_constraints m n = Except.error PyErr.assertionErr)) ∧
      ∀ (ml nl : List StrDict) (L : List (StrDict × StrDict)) (m n : StrDict),
        merge_master_adds_and_new_adds ml nl = Except.ok L → (m, n) ∈ L →
        ∃ p, adds_to_add_drop_constraints m n = Except.ok p := by
  constructor
  · intro m n mc nc mt nt hmc hnc hmt hnt
    constructor
    · rintro (hne | hne)
      · simp [adds_to_add_drop_constraints, pyGet, hmc, hnc, hne]
      · by_cases hcc : mc = nc
        · subst hcc
          simp [adds_to_add_drop_constraints, pyGet, hmc, hnc, hmt, hnt, hne]
        · simp [adds_to_add_drop_constraints, pyGet, hmc, hnc, hcc]
    · intro herr
      by_contra hcon
      push_neg at hcon
      obtain ⟨hcc, htt⟩ := hcon
      subst hcc
      subst htt
      rcases h5 : dictGet? m "constraintName" with _ | mcn
      · simp [adds_to_add_drop_constraints, to_drop_constraint_version, pyGet,
          hmc, hnc, hmt, hnt, h5] at herr
      rcases h6 : dictGet? n "constraintName" with _ | ncn
      · simp [adds_to_add_drop_constraints, to_drop_constraint_version, pyGet,
          hmc, hnc, hmt, hnt, h5, h6] at herr
      simp [adds_to_add_drop_constraints, to_drop_constraint_version, pyGet,
        hmc, hnc, hmt, hnt, h5, h6] at herr
  · intro ml nl L m n h hmem
    have hg := (merge_mem h m n).mp hmem
    obtain ⟨t, c, mcn, ncn, h1, h2, h3, h4, h5, h6, h7⟩ := mergeGuard_true_elim hg.2.2
    exact ⟨_, computeRename_ok h3 h4 h1 h2 h5 h6⟩

/-- Witness for C4: a mismatched pair triggers the assertion error, and a
pair coming out of the matcher computes successfully. -/
theorem claim_C4_witness :
    adds_to_add_drop_constraints
        [("columnNames", "u"), ("tableName", "T")]
        [("columnNames", "v"), ("tableName", "T")] =
      Except.error PyErr.assertionErr ∧
      ∃ p, adds_to_add_drop_constraints
          [("columnNames", "u"), ("constraintName", "A"), ("tableName", "T")]
          [("columnNames", "u"), ("constraintName", "B"), ("tableName", "T")] =
        Except.ok p :=
  ⟨(claim_C4_precondition_safety.1
      [("columnNames", "u"), ("tableName", "T")]
      [("columnNames", "v"), ("tableName", "T")]
      "u" "v" "T" "T" rfl rfl rfl rfl).mp (Or.inl (by decide)),
   claim_C4_precondition_safety.2
     [[("columnNames", "u"), ("constraintName", "A"), ("tableName", "T")]]
     [[("columnNames", "u"), ("constraintName", "B"), ("tableName", "T")]]
     [([("columnNames", "u"), ("constraintName", "A"), ("tableName", "T")],
       [("columnNames", "u"), ("constraintName", "B"), ("tableName", "T")])]
     [("columnNames", "u"), ("constraintName", "A"), ("tableName", "T")]
     [("columnNames", "u"), ("constraintName", "B"), ("tableName", "T")]
     (by decide) (by decide)⟩

/-- C3 counterexample: a drop record carrying an attribute beyond
constraintName and tableName has the same (tableName, constraintName) key
as the addition, yet FilterSuperseded retains the addition; so it is false
that every addition whose key equals some drop's key is removed. -/
theorem claim_C3_counterexample :
    remove_dropped_adds
        [[("columnNames", "u"), ("constraintName", "X"), ("tableName", "T")]]
        [[("constraintName", "X"), ("tableName", "T"), ("uniqueColumns", "u")]] =
      Except.ok [[("columnNames", "u"), ("constraintName", "X"), ("tableName", "T")]] ∧
      dictGet? [("constraintName", "X"), ("tableName", "T"), ("uniqueColumns", "u")]
          "constraintName" =
        dictGet? [("columnNames", "u"), ("constraintName", "X"), ("tableName", "T")]
          "constraintName" ∧
      dictGet? [("constraintName", "X"), ("tableName", "T"), ("uniqueColumns", "u")]
          "tableName" =
        dictGet? [("columnNames", "u"), ("constraintName", "X"), ("tableName", "T")]
          "tableName" :=
  ⟨by decide, by decide, by decide⟩

/-- C3 amended: FilterSuperseded removes exactly those additions whose
two-field projection {constraintName, tableName} equals, as a whole record
under dict equality, some record in the drop list; with an empty drop list
every addition is retained. -/
theorem claim_C3_amended_removal (adds drops r : List StrDict)
    (h : remove_dropped_adds adds drops = Except.ok r) :
    (∀ a ∈ adds,
        (a ∉ r ↔ ∃ pa d, to_drop_constraint_version a = Except.ok pa ∧
          d ∈ drops ∧ dictEq pa d = true)) ∧
      (drops = [] → r = adds) := by
  obtain ⟨hr, hall⟩ := remove_ok_iff h
  subst hr
  constructor
  · intro a ha
    obtain ⟨pa, hpa⟩ := hall a ha
    constructor
    · intro hnr
      by_cases hk : keepAdd drops a = true
      · exact absurd (List.mem_filter.mpr ⟨ha, hk⟩) hnr
      · simp [keepAdd, hpa] at hk
        obtain ⟨d, hd, hde⟩ := hk
        exact ⟨pa, d, hpa, hd, hde⟩
    · rintro ⟨pa2, d, hpa2, hd, hde⟩ hmem
      rw [hpa] at hpa2
      simp only [Except.ok.injEq] at hpa2
      subst hpa2
      have hk := (List.mem_filter.mp hmem).2
      simp [keepAdd, hpa, List.any_eq_false] at hk
      rw [hk d hd] at hde
      simp at hde
  · intro hdrops
    subst hdrops
    rw [List.filter_eq_self]
    intro a ha
    obtain ⟨pa, hpa⟩ := hall a ha
    simp [keepAdd, hpa]

/-- Witness for the amended C3: an addition superseded by an exactly
matching two-field drop is removed, and the same addition survives an
empty drop list. -/
theorem claim_C3_witness :
    ([("columnNames", "u"), ("constraintName", "X"), ("tableName", "T")] ∉
      ([] : List StrDict)) ∧
      remove_dropped_adds
          [[("columnNames", "u"), ("constraintName", "X"), ("tableName", "T")]] [] =
        Except.ok [[("columnNames", "u"), ("constraintName", "X"), ("tableName", "T")]] := by
  constructor
  · exact ((claim_C3_amended_removal
        [[("columnNames", "u"), ("constraintName", "X"), ("tableName", "T")]]
        [[("constraintName", "X"), ("tableName", "T")]] [] (by decide)).1
        [("columnNames", "u"), ("constraintName", "X"), ("tableName", "T")]
        (by decide)).mpr
      ⟨[("constraintName", "X"), ("tableName", "T")],
       [("constraintName", "X"), ("tableName", "T")], by decide, by decide, by decide⟩
  · have h2 := (claim_C3_amended_removal
        [[("columnNames", "u"), ("constraintName", "X"), ("tableName", "T")]] []
        [[("columnNames", "u"), ("constraintName", "X"), ("tableName", "T")]]
        (by decide)).2 rfl
    decide

/-- C7: FilterSuperseded is idempotent for a fixed drop list: filtering
its own result again with the same drops returns the result unchanged. -/
theorem claim_C7_filter_idempotent (adds drops r : List StrDict)
    (h : remove_dropped_adds adds drops = Except.ok r) :
    remove_dropped_adds r drops = Except.ok r := by
  obtain ⟨hr, hall⟩ := remove_ok_iff h
  subst hr
  rw [remove_of_all_ok drops fun a ha => hall a (List.mem_of_mem_filter ha)]
  rw [List.filter_filter]
  simp

/-- Witness for C7 at a concrete addition list and drop list. -/
theorem claim_C7_witness :
    remove_dropped_adds
        [[("columnNames", "u"), ("constraintName", "X"), ("tableName", "T")]]
        [[("constraintName", "Y"), ("tableName", "T")]] =
      Except.ok [[("columnNames", "u"), ("constraintName", "X"), ("tableName", "T")]] :=
  claim_C7_filter_idempotent
    [[("columnNames", "u"), ("constraintName", "X"), ("tableName", "T")]]
    [[("constraintName", "Y"), ("tableName", "T")]]
    [[("columnNames", "u"), ("constraintName", "X"), ("tableName", "T")]]
    (by decide)

/-- C9: an addition is removed by FilterSuperseded iff some record in the
drop list equals, as a whole record, the two-field projection of the
addition; consequently, when every drop record carries an attribute beyond
constraintName and tableName, no addition is removed at all. -/
theorem claim_C9_whole_record_match (adds drops r : List StrDict)
    (h : remove_dropped_adds adds drops = Except.ok r) :
    (∀ a ∈ adds, ∃ pa, to_drop_constraint_version a = Except.ok pa ∧
        (a ∉ r ↔ ∃ d ∈ drops, dictEq pa d = true)) ∧
      ((∀ d ∈ drops, ∃ k v, dictGet? d k = some v ∧
          k ≠ "constraintName" ∧ k ≠ "tableName") → r = adds) := by
  obtain ⟨hr, hall⟩ := remove_ok_iff h
  subst hr
  constructor
  · intro a ha
    obtain ⟨pa, hpa⟩ := hall a ha
    refine ⟨pa, hpa, ?_, ?_⟩
    · intro hnr
      by_cases hk : keepAdd drops a = true
      · exact absurd (List.mem_filter.mpr ⟨ha, hk⟩) hnr
      · simp [keepAdd, hpa] at hk
        obtain ⟨d, hd, hde⟩ := hk
        exact ⟨d, hd, hde⟩
    · rintro ⟨d, hd, hde⟩ hmem
      have hk := (List.mem_filter.mp hmem).2
      simp [keepAdd, hpa, List.any_eq_false] at hk
      rw [hk d hd] at hde
      simp at hde
  · intro hextra
    rw [List.filter_eq_self]
    intro a ha
    obtain ⟨pa, hpa⟩ := hall a ha
    obtain ⟨c, t, hc, ht, hshape⟩ := to_drop_shape hpa
    simp only [keepAdd, hpa, Bool.not_eq_true']
    rw [List.any_eq_false]
    intro d hd
    obtain ⟨k, v, hkv, hk1, hk2⟩ := hextra d hd
    have hmem := dictGet?_mem hkv
    intro hde
    simp only [dictEq, Bool.and_eq_true, List.all_eq_true] at hde
    have hallb := hde.2 (k, v) hmem
    rw [hshape] at hallb
    simp [dictGet?, Ne.symm hk1, Ne.symm hk2] at hallb

/-- Witness for C9: an addition removed by an exact two-field drop match,
and retention under a drop record with an extra attribute. -/
theorem claim_C9_witness :
    (∃ pa, to_drop_constraint_version
        [("columnNames", "u"), ("constraintName", "X"), ("tableName", "T")] =
        Except.ok pa ∧
      ([("columnNames", "u"), ("constraintName", "X"), ("tableName", "T")] ∉
          ([] : List StrDict) ↔
        ∃ d ∈ [[("constraintName", "X"), ("tableName", "T")]], dictEq pa d = true)) := by
  have h := (claim_C9_whole_record_match
      [[("columnNames", "u"), ("constraintName", "X"), ("tableName", "T")]]
      [[("constraintName", "X"), ("tableName", "T")]] [] (by decide)).1
      [("columnNames", "u"), ("constraintName", "X"), ("tableName", "T")] (by decide)
  exact h

/-- C10: the output of FilterSuperseded is a subsequence of its input: the
retained records are the input records unchanged, in the same relative
order; the drop list, an input of this pure function, is not modified. -/
theorem claim_C10_result_sublist (adds drops r : List StrDict)
    (h : remove_dropped_adds adds drops = Except.ok r) :
    r.Sublist adds := by
  obtain ⟨hr, -⟩ := remove_ok_iff h
  rw [hr]
  exact List.filter_sublist adds

/-- Witness for C10: a two-element addition list filtered down to its
second element, which forms a subsequence of the input. -/
theorem claim_C10_witness :
    List.Sublist
      [[("columnNames", "v"), ("constraintName", "Y"), ("tableName", "T")]]
      [[("columnNames", "u"), ("constraintName", "X"), ("tableName", "T")],
       [("columnNames", "v"), ("constraintName", "Y"), ("tableName", "T")]] :=
  claim_C10_result_sublist
    [[("columnNames", "u"), ("constraintName", "X"), ("tableName", "T")],
     [("columnNames", "v"), ("constraintName", "Y"), ("tableName", "T")]]
    [[("constraintName", "X"), ("tableName", "T")]]
    [[("columnNames", "v"), ("constraintName", "Y"), ("tableName", "T")]]
    (by decide)

/-- C6: BuildChangelog produces a document whose children are the property
elements copied verbatim in input order, then exactly one change-set
carrying the caller-supplied change id, whose children are the provenance
comment, then for each pair in order a drop-constraint element immediately
followed by the matching add-constraint element, then exactly one trailing
modifySql directive scoped to the postgresql dialect holding a single
replace of the token WITH by WITHOUT. -/
theorem claim_C6_changelog_structure (user change_id : String)
    (pairs : List (StrDict × StrDict)) (properties : List StrDict) :
    add_and_removes_to_changelog_xml user pairs properties change_id =
      XML.elem "databaseChangeLog" nsAttrs none
        (propertyElems properties ++
          [XML.elem "changeSet" [("author", user), ("id", change_id)] none
            (commentElem :: (renamePairElems pairs ++ [modifySqlElem]))]) := by
  simp only [add_and_removes_to_changelog_xml]
  rw [foldl_property_append]
  have h1 : appendChild (XML.elem "changeSet" [("author", user), ("id", change_id)] none [])
        (XML.elem "comment" [] (some provenanceText) []) =
      XML.elem "changeSet" [("author", user), ("id", change_id)] none [commentElem] := by
    simp [appendChild, commentElem]
  rw [h1, foldl_rename_append]
  have h2 : appendChild
        (XML.elem "changeSet" [("author", user), ("id", change_id)] none
          ([commentElem] ++ renamePairElems pairs))
        (XML.elem "modifySql" [("dbms", "postgresql")] none
          [XML.elem "replace" [("replace", "WITH"), ("with", "WITHOUT")] none []]) =
      XML.elem "changeSet" [("author", user), ("id", change_id)] none
        (commentElem :: (renamePairElems pairs ++ [modifySqlElem])) := by
    simp [appendChild, modifySqlElem]
  rw [h2]
  simp [appendChild]

/-- Dict equality ignores insertion order, as Python dict equality does. -/
theorem dictEq_insertion_order_irrelevant :
    dictEq [("a", "1"), ("b", "2")] [("b", "2"), ("a", "1")] = true := by decide

/-- The embedding reproduces the second doctest of
`adds_to_add_drop_constraints` in the source. -/
theorem doctest_rename_external_gateway :
    adds_to_add_drop_constraints
      [("columnNames", "uuid"), ("constraintName", "externalgatewayjpa_uuid_key"),
       ("deferrable", "false"), ("disabled", "false"), ("initiallyDeferred", "false"),
       ("tableName", "externalgatewayjpa")]
      [("columnNames", "uuid"), ("constraintName", "uk_2pqcv4b75ribau4in54ppmyuu"),
       ("tableName", "externalgatewayjpa")] =
    Except.ok
      ([("constraintName", "externalgatewayjpa_uuid_key"), ("tableName", "externalgatewayjpa")],
       [("columnNames", "uuid"), ("constraintName", "uk_2pqcv4b75ribau4in54ppmyuu"),
        ("deferrable", "false"), ("disabled", "false"), ("initiallyDeferred", "false"),
        ("tableName", "externalgatewayjpa")]) := by decide
